import Mathlib

/-!
Verification of the Gherkin text normalizer (`clean_gherkin_text_simplified`).
The program is embedded shallowly over `List Char`: Python strings become
character lists, `str.replace`, `str.strip`, `str.split` and the regex-based
block segmentation become structurally recursive Lean functions with the same
left-to-right semantics.
-/

namespace Gherkin

/-- Python whitespace (the set stripped by `str.strip()` / `str.rstrip()`
with no arguments, i.e. the characters for which `str.isspace()` holds). -/
def isPySpace (c : Char) : Bool :=
  let n := c.toNat
  n == 32 || n == 9 || n == 10 || n == 13 || n == 11 || n == 12 ||
  (decide (28 ≤ n) && decide (n ≤ 31)) || n == 133 || n == 160 ||
  n == 0x1680 || (decide (0x2000 ≤ n) && decide (n ≤ 0x200a)) ||
  n == 0x2028 || n == 0x2029 || n == 0x202f || n == 0x205f || n == 0x3000

/-- `startsWithSeq p l` : does `l` begin with the character sequence `p`?
(Python `str.startswith`.) -/
def startsWithSeq : List Char → List Char → Bool
  | [], _ => true
  | _ :: _, [] => false
  | p :: ps, c :: cs => p == c && startsWithSeq ps cs

/-- Does `l` contain `pat` as a contiguous subsequence?  (Python `in`.) -/
def containsSeq (pat : List Char) : List Char → Bool
  | [] => startsWithSeq pat []
  | c :: rest => startsWithSeq pat (c :: rest) || containsSeq pat rest

/-- Python `str.lstrip()` (no argument): drop leading whitespace. -/
def lstripW (l : List Char) : List Char := l.dropWhile isPySpace

/-- Python `str.rstrip()` (no argument): drop trailing whitespace. -/
def rstripW (l : List Char) : List Char :=
  (l.reverse.dropWhile isPySpace).reverse

/-- Python `str.strip()` (no argument): drop whitespace at both ends. -/
def stripBoth (l : List Char) : List Char := rstripW (lstripW l)

/-- Python `str.lstrip(' \t')`: drop leading spaces and tabs only
(line 52 of the source). -/
def dropWhileST (l : List Char) : List Char :=
  l.dropWhile (fun c => c == ' ' || c == '\t')

/-- Python `str.replace('""', '"')`: collapse doubled quotes, scanning
left to right and replacing non-overlapping pairs (line 48 of the source). -/
def collapse : List Char → List Char
  | [] => []
  | [c] => [c]
  | c1 :: c2 :: rest =>
    if c1 == '"' && c2 == '"' then '"' :: collapse rest
    else c1 :: collapse (c2 :: rest)

/-- Python `raw_text.replace('\r\n', '\n')` (line 17 of the source):
non-overlapping left-to-right replacement. -/
def normalizeNewlines : List Char → List Char
  | [] => []
  | [c] => [c]
  | c1 :: c2 :: rest =>
    if c1 == '\r' && c2 == '\n' then '\n' :: normalizeNewlines rest
    else c1 :: normalizeNewlines (c2 :: rest)

/-- Python `str.split('\n')` (line 40 of the source): always returns at
least one piece. -/
def splitNl : List Char → List (List Char)
  | [] => [[]]
  | c :: rest =>
    if c == '\n' then [] :: splitNl rest
    else
      match splitNl rest with
      | [] => [[c]]
      | h :: t => (c :: h) :: t

/-- Python `sep.join(pieces)`. -/
def joinSep (sep : List Char) : List (List Char) → List Char
  | [] => []
  | [b] => b
  | b :: bs => b ++ sep ++ joinSep sep bs

/-- The literal `Feature:`. -/
def featureMarker : List Char := ['F', 'e', 'a', 't', 'u', 'r', 'e', ':']

/-- Does a suffix of the document start with the block marker `"?Feature:`
(regex `"?Feature:` at this position, line 22 of the source)? -/
def isMarker (l : List Char) : Bool :=
  startsWithSeq featureMarker l ||
  (match l with
   | c :: rest => c == '"' && startsWithSeq featureMarker rest
   | [] => false)

/-- Number of characters the regex consumes for the marker `"?Feature:`
(the optional quote is matched greedily). -/
def markerLen (l : List Char) : Nat :=
  match l with
  | c :: rest => if c == '"' && startsWithSeq featureMarker rest then 9 else 8
  | [] => 8

/-- Drop characters until the suffix starts with a marker (the scan
`finditer` does before its first match); `[]` if there is no marker. -/
def dropToMarker : List Char → List Char
  | [] => []
  | c :: rest => if isMarker (c :: rest) then c :: rest else dropToMarker rest

/-- Scanner for one block and its successors.  `skip` counts positions
still inside the marker just consumed (the regex lookahead only tests
positions after `"?Feature:`); `cur` is the reversed accumulator of the
current block.  A block ends at the next marker position, or at `$`
(end of input, or just before a final newline -- Python `$` without
`re.MULTILINE`). -/
def segGo : Nat → List Char → List Char → List (List Char)
  | _, cur, [] => [cur.reverse]
  | Nat.succ k, cur, c :: rest => segGo k (c :: cur) rest
  | 0, cur, c :: rest =>
    if isMarker (c :: rest) then
      cur.reverse :: segGo (markerLen (c :: rest) - 1) [c] rest
    else if c == '\n' && rest.isEmpty then [cur.reverse]
    else segGo 0 (c :: cur) rest

/-- All blocks matched by
`re.compile(r'(?P<block>"?Feature:.*?)(?=(?:"?Feature:|$))', re.DOTALL)`
over the document (lines 22-28 of the source), in document order. -/
def blocks (l : List Char) : List (List Char) :=
  match dropToMarker l with
  | [] => []
  | c :: rest => segGo (markerLen (c :: rest) - 1) [c] rest

/-- Python slice `s[:-1]`. -/
def dropLastSlice (l : List Char) : List Char := l.take (l.length - 1)

/-- The quote marker `"Feature:`. -/
def quotedFeatureMarker : List Char := '"' :: featureMarker

/-- Block-level artifact-quote stripping (lines 33-38 of the source),
applied to the already stripped block text. -/
def unwrapQuotes (t : List Char) : List Char :=
  if startsWithSeq quotedFeatureMarker t && (t.getLast? == some '"') then
    (dropLastSlice t).drop 1
  else if startsWithSeq featureMarker t && (t.getLast? == some '"') then
    dropLastSlice t
  else t

/-- Indentation keywords of the classifier (lines 57-74 of the source). -/
def kwTag : List Char := ['@']
def kwScenario : List Char := ['S', 'c', 'e', 'n', 'a', 'r', 'i', 'o', ':']
def kwRule : List Char := ['R', 'u', 'l', 'e', ':']
def kwExample : List Char := ['E', 'x', 'a', 'm', 'p', 'l', 'e', ':']
def kwBackground : List Char := ['B', 'a', 'c', 'k', 'g', 'r', 'o', 'u', 'n', 'd', ':']
def kwExamples : List Char := ['E', 'x', 'a', 'm', 'p', 'l', 'e', 's', ':']
def kwTableRow : List Char := ['|']
def kwGiven : List Char := ['G', 'i', 'v', 'e', 'n']
def kwWhen : List Char := ['W', 'h', 'e', 'n']
def kwThen : List Char := ['T', 'h', 'e', 'n']
def kwAnd : List Char := ['A', 'n', 'd']
def kwBut : List Char := ['B', 'u', 't']
def kwStar : List Char := ['*']

/-- Reformat a single line of a block (lines 43-80 of the source):
rstrip, collapse doubled quotes, strip leading spaces/tabs for keyword
detection, then emit with the canonical indentation of the first
matching keyword; blank lines become empty, unknown lines are kept as
the rstripped, quote-collapsed content. -/
def processLine (line : List Char) : List Char :=
  let p := collapse (rstripW line)
  let t := dropWhileST p
  if startsWithSeq featureMarker t then t
  else if startsWithSeq kwTag t then ' ' :: ' ' :: t
  else if startsWithSeq kwScenario t || startsWithSeq kwRule t ||
          startsWithSeq kwExample t || startsWithSeq kwBackground t then
    ' ' :: ' ' :: t
  else if startsWithSeq kwExamples t then ' ' :: ' ' :: ' ' :: ' ' :: t
  else if startsWithSeq kwTableRow t then
    ' ' :: ' ' :: ' ' :: ' ' :: ' ' :: ' ' :: t
  else if startsWithSeq kwGiven t || startsWithSeq kwWhen t ||
          startsWithSeq kwThen t || startsWithSeq kwAnd t ||
          startsWithSeq kwBut t || startsWithSeq kwStar t then
    ' ' :: ' ' :: ' ' :: ' ' :: t
  else if t.isEmpty then []
  else p

/-- The cleaned text of one block before line reformatting
(lines 28-38 of the source). -/
def cleanedBlockText (b : List Char) : List Char := unwrapQuotes (stripBoth b)

/-- The reformatted lines a block produces (lines 40-80 of the source). -/
def reformattedLines (b : List Char) : List (List Char) :=
  (splitNl (cleanedBlockText b)).map processLine

/-- A block's assembled text (its reformatted lines joined by `'\n'`). -/
def blockAssembled (b : List Char) : List Char :=
  joinSep ['\n'] (reformattedLines b)

/-- What a block contributes to the output: the source guards the append
with `if reformatted_lines_for_current_block or cleaned_block_text:`
(line 82), so a block whose line list and cleaned text are both empty
would contribute nothing. -/
def blockContribution (b : List Char) : Option (List Char) :=
  if !(reformattedLines b).isEmpty || !(cleanedBlockText b).isEmpty then
    some (blockAssembled b)
  else none

/-- Final assembly (lines 82-86 of the source): contributing blocks
joined with a blank line. -/
def assembleBlocks (bs : List (List Char)) : List Char :=
  joinSep ['\n', '\n'] (bs.filterMap blockContribution)

/-- The whole program, `clean_gherkin_text_simplified` (lines 3-86 of the
source). -/
def clean_gherkin_text_simplified (raw : List Char) : List Char :=
  assembleBlocks (blocks (normalizeNewlines raw))

/-! ### Spec-side definitions

These follow the specification's words and are compared against the
definitions above, which are translated from the source. -/

/-- Following the spec (§3 table, §4.3 priority order): the ordered rule
table of (prefix set, canonical indent in spaces), first match wins. -/
def specRuleTable : List (List (List Char) × Nat) :=
  [([featureMarker], 0),
   ([kwTag], 2),
   ([kwScenario, kwRule, kwExample, kwBackground], 2),
   ([kwExamples], 4),
   ([kwTableRow], 6),
   ([kwGiven, kwWhen, kwThen, kwAnd, kwBut, kwStar], 4)]

/-- First rule of the table whose prefix set matches the token. -/
def findRuleIndent : List (List (List Char) × Nat) → List Char → Option Nat
  | [], _ => none
  | (pats, ind) :: rs, t =>
    if pats.any (fun pre => startsWithSeq pre t) then some ind
    else findRuleIndent rs t

/-- Following the spec (§4.3): rstrip, collapse doubled quotes, strip
leading spaces/tabs, look the token up in the priority-ordered rule
table and emit `canonical_indent ++ token`; emit the empty string for a
blank token and the rstripped collapsed line for a fallback token. -/
def specProcessLine (line : List Char) : List Char :=
  let p := collapse (rstripW line)
  let t := dropWhileST p
  match findRuleIndent specRuleTable t with
  | some n => List.replicate n ' ' ++ t
  | none => if t.isEmpty then [] else p

/-- Following the spec (§4.2): remove exactly the first and the last
character when the trimmed block is quote-wrapped, exactly the last when
only a trailing artifact quote is present, otherwise leave unchanged. -/
def specUnwrap (t : List Char) : List Char :=
  if startsWithSeq quotedFeatureMarker t && (t.getLast? == some '"') then
    (t.drop 1).dropLast
  else if startsWithSeq featureMarker t && (t.getLast? == some '"') then
    t.dropLast
  else t

/-- Following the spec (§4.4): blocks joined with exactly two newline
characters between consecutive blocks and no trailing separator. -/
def join2spec : List (List Char) → List Char
  | [] => []
  | [b] => b
  | b :: bs => b ++ '\n' :: '\n' :: join2spec bs

/-! ### Assembly lemmas -/

lemma splitNl_ne_nil (l : List Char) : splitNl l ≠ [] := by
  induction l with
  | nil => simp [splitNl]
  | cons c rest ih =>
    simp only [splitNl]
    split
    · simp
    · cases h : splitNl rest with
      | nil => exact absurd h ih
      | cons a t => simp [h]

lemma reformattedLines_ne_nil (b : List Char) : reformattedLines b ≠ [] := by
  unfold reformattedLines
  intro h
  rw [List.map_eq_nil_iff] at h
  exact splitNl_ne_nil _ h

lemma blockContribution_some (b : List Char) :
    blockContribution b = some (blockAssembled b) := by
  unfold blockContribution
  cases hr : reformattedLines b with
  | nil => exact absurd hr (reformattedLines_ne_nil b)
  | cons x xs => simp [hr]

lemma filterMap_contribution (bs : List (List Char)) :
    bs.filterMap blockContribution = bs.map blockAssembled := by
  induction bs with
  | nil => rfl
  | cons b bs ih => simp [List.filterMap_cons, blockContribution_some, ih]

lemma joinSep_two_eq (bs : List (List Char)) :
    joinSep ['\n', '\n'] bs = join2spec bs := by
  induction bs with
  | nil => rfl
  | cons b bs ih =>
    cases bs with
    | nil => rfl
    | cons b2 bs2 => simp [joinSep, join2spec, ← ih]

/-! ### Marker-scan lemmas -/

lemma containsSeq_of_startsWith {pat l : List Char}
    (h : startsWithSeq pat l = true) : containsSeq pat l = true := by
  cases l with
  | nil => exact h
  | cons c rest => simp [containsSeq, h]

lemma containsSeq_tail {pat rest : List Char} (c : Char)
    (h : containsSeq pat rest = true) : containsSeq pat (c :: rest) = true := by
  simp [containsSeq, h]

lemma containsSeq_of_isMarker {l : List Char} (h : isMarker l = true) :
    containsSeq featureMarker l = true := by
  cases l with
  | nil => exact absurd h (by decide)
  | cons c rest =>
    unfold isMarker at h
    simp only [Bool.or_eq_true, Bool.and_eq_true] at h
    rcases h with h | ⟨_, h⟩
    · exact containsSeq_of_startsWith h
    · exact containsSeq_tail c (containsSeq_of_startsWith h)

lemma dropToMarker_eq_nil :
    ∀ l, containsSeq featureMarker l = false → dropToMarker l = [] := by
  intro l
  induction l with
  | nil => intro _; rfl
  | cons c rest ih =>
    intro h
    simp only [containsSeq, Bool.or_eq_false_iff] at h
    have hm : isMarker (c :: rest) = false := by
      cases hmm : isMarker (c :: rest) with
      | false => rfl
      | true =>
        have := containsSeq_of_isMarker hmm
        simp [containsSeq, h.1, h.2] at this
    simp only [dropToMarker, hm, Bool.false_eq_true, if_false]
    exact ih h.2

lemma dropToMarker_idem (l : List Char) :
    dropToMarker (dropToMarker l) = dropToMarker l := by
  induction l with
  | nil => rfl
  | cons c rest ih =>
    simp only [dropToMarker]
    split
    · next h => simp only [dropToMarker, h, if_true]
    · exact ih

lemma startsWithSeq_normalize :
    ∀ m q, '\n' ∉ q → startsWithSeq q (normalizeNewlines m) = true →
      startsWithSeq q m = true := by
  intro m
  induction m using normalizeNewlines.induct with
  | case1 =>
    intro q _ h
    simpa [normalizeNewlines] using h
  | case2 c =>
    intro q _ h
    simpa [normalizeNewlines] using h
  | case3 c1 c2 rest hif ih =>
    intro q hq h
    rw [normalizeNewlines, if_pos hif] at h
    simp only [Bool.and_eq_true, beq_iff_eq] at hif
    cases q with
    | nil => rfl
    | cons a q' =>
      simp only [startsWithSeq, Bool.and_eq_true, beq_iff_eq] at h
      exact absurd (h.1 ▸ List.mem_cons_self a q') hq
  | case4 c1 c2 rest hif ih =>
    intro q hq h
    rw [normalizeNewlines, if_neg hif] at h
    cases q with
    | nil => rfl
    | cons a q' =>
      simp only [startsWithSeq, Bool.and_eq_true] at h ⊢
      refine ⟨h.1, ih q' (fun hm => hq (List.mem_cons_of_mem a hm)) h.2⟩

lemma containsSeq_normalize :
    ∀ m, containsSeq featureMarker (normalizeNewlines m) = true →
      containsSeq featureMarker m = true := by
  intro m
  induction m using normalizeNewlines.induct with
  | case1 => intro h; exact absurd h (by decide)
  | case2 c => intro h; exact h
  | case3 c1 c2 rest hif ih =>
    intro h
    rw [normalizeNewlines, if_pos hif] at h
    simp only [containsSeq, Bool.or_eq_true] at h
    rcases h with h | h
    · exact absurd h (by simp [startsWithSeq, featureMarker])
    · simp only [Bool.and_eq_true, beq_iff_eq] at hif
      obtain ⟨h1, h2⟩ := hif
      subst h1
      subst h2
      exact containsSeq_tail _ (containsSeq_tail _ (ih h))
  | case4 c1 c2 rest hif ih =>
    intro h
    rw [normalizeNewlines, if_neg hif] at h
    simp only [containsSeq, Bool.or_eq_true] at h
    rcases h with h | h
    · have h2 : startsWithSeq featureMarker (normalizeNewlines (c1 :: c2 :: rest)) = true := by
        rw [normalizeNewlines, if_neg hif]
        exact h
      exact containsSeq_of_startsWith
        (startsWithSeq_normalize _ _ (by decide) h2)
    · exact containsSeq_tail _ (ih h)

/-! ### Claim theorems (first group) -/

/-- C6: the transformed blocks appear in the output in their original
input order, joined with exactly two newline characters between
consecutive blocks, with no trailing separator appended. -/
theorem c6_blocks_joined_in_order (raw : List Char) :
    clean_gherkin_text_simplified raw =
      join2spec ((blocks (normalizeNewlines raw)).map blockAssembled) := by
  unfold clean_gherkin_text_simplified assembleBlocks
  rw [filterMap_contribution, joinSep_two_eq]

/-- C10: the list of reformatted lines of any block is non-empty
(splitting on newlines yields at least one line and every line appends
one entry), so the assembler's guard never drops a block: every
segmented block contributes its assembled text. -/
theorem c10_guard_always_true (b : List Char) :
    reformattedLines b ≠ [] ∧ blockContribution b = some (blockAssembled b) :=
  ⟨reformattedLines_ne_nil b, blockContribution_some b⟩

/-- C9: text preceding the first occurrence of the marker belongs to no
block and is discarded - the output only depends on the suffix of the
(newline-normalized) input that starts at the first marker. -/
theorem c9_preamble_discarded (raw : List Char) :
    clean_gherkin_text_simplified raw =
      assembleBlocks (blocks (dropToMarker (normalizeNewlines raw))) := by
  unfold clean_gherkin_text_simplified
  congr 1
  unfold blocks
  rw [dropToMarker_idem]

/-- C7: the empty string maps to the empty string, and any input with no
occurrence of the feature marker anywhere maps to the empty string. -/
theorem c7_no_marker_empty_output :
    clean_gherkin_text_simplified [] = [] ∧
      ∀ x, containsSeq featureMarker x = false →
        clean_gherkin_text_simplified x = [] := by
  refine ⟨rfl, fun x h => ?_⟩
  have h2 : containsSeq featureMarker (normalizeNewlines x) = false := by
    cases hn : containsSeq featureMarker (normalizeNewlines x) with
    | false => rfl
    | true => exact absurd (containsSeq_normalize x hn) (by simp [h])
  unfold clean_gherkin_text_simplified blocks
  rw [dropToMarker_eq_nil _ h2]
  rfl

/-- Witness for C7 at a concrete marker-free input. -/
theorem c7_no_marker_empty_output_witness :
    containsSeq featureMarker ['h', 'e', 'l', 'l', 'o'] = false ∧
      clean_gherkin_text_simplified ['h', 'e', 'l', 'l', 'o'] = [] :=
  ⟨by decide, c7_no_marker_empty_output.2 ['h', 'e', 'l', 'l', 'o'] (by decide)⟩

/-- C8: the core transformation is a total function over every string
input: it is definable as a total Lean function, so every input, however
malformed its quoting, yields a result string; on an unbalanced-quote
input it degrades to partial quote collapsing rather than failing. -/
theorem c8_total_function :
    (∀ x, ∃ y, clean_gherkin_text_simplified x = y) ∧
      clean_gherkin_text_simplified
          ['F', 'e', 'a', 't', 'u', 'r', 'e', ':', ' ', '"', '"', '"', 'x'] =
        ['F', 'e', 'a', 't', 'u', 'r', 'e', ':', ' ', '"', '"', 'x'] :=
  ⟨fun x => ⟨clean_gherkin_text_simplified x, rfl⟩, by decide⟩

/-! ### Unwrap lemmas -/

lemma unwrap_eq_spec (t : List Char) : unwrapQuotes t = specUnwrap t := by
  unfold unwrapQuotes specUnwrap dropLastSlice
  by_cases h1 :
      (startsWithSeq quotedFeatureMarker t && (t.getLast? == some '"')) = true
  · rw [if_pos h1, if_pos h1]
    simp [List.dropLast_eq_take, List.drop_take, List.length_drop]
  · rw [if_neg h1, if_neg h1]
    by_cases h2 :
        (startsWithSeq featureMarker t && (t.getLast? == some '"')) = true
    · rw [if_pos h2, if_pos h2, List.dropLast_eq_take]
    · rw [if_neg h2, if_neg h2]

/-! ### Quote-collapse lemmas -/

lemma collapse_append_of_getLast (m : List Char) :
    ∀ a, a.getLast? ≠ some '"' → collapse (a ++ m) = collapse a ++ collapse m := by
  intro a
  induction a using collapse.induct with
  | case1 => intro _; simp [collapse]
  | case2 c =>
    intro h
    simp only [List.getLast?_singleton, ne_eq, Option.some.injEq] at h
    cases m with
    | nil => simp [collapse]
    | cons d m' =>
      have e : collapse ([c] ++ d :: m') = c :: collapse (d :: m') := by
        rw [List.singleton_append, collapse, if_neg (by simp [h])]
      rw [e]
      rfl
  | case3 c1 c2 rest hif ih =>
    intro h
    simp only [Bool.and_eq_true, beq_iff_eq] at hif
    obtain ⟨h1, h2⟩ := hif
    subst h1; subst h2
    cases rest with
    | nil => exact absurd rfl h
    | cons r rs =>
      have h' : (r :: rs).getLast? ≠ some '"' := by
        rwa [List.getLast?_cons_cons, List.getLast?_cons_cons] at h
      have e : collapse (('"' :: '"' :: (r :: rs)) ++ m) =
          '"' :: collapse ((r :: rs) ++ m) := by
        rw [List.cons_append, List.cons_append, collapse, if_pos (by decide)]
      have e2 : collapse ('"' :: '"' :: (r :: rs)) = '"' :: collapse (r :: rs) := by
        rw [collapse, if_pos (by decide)]
      rw [e, e2, ih h', List.cons_append]
  | case4 c1 c2 rest hif ih =>
    intro h
    have h' : (c2 :: rest).getLast? ≠ some '"' := by
      rwa [List.getLast?_cons_cons] at h
    have e : collapse ((c1 :: c2 :: rest) ++ m) =
        c1 :: collapse ((c2 :: rest) ++ m) := by
      rw [List.cons_append, List.cons_append, collapse, if_neg hif]
    have e2 : collapse (c1 :: c2 :: rest) = c1 :: collapse (c2 :: rest) := by
      rw [collapse, if_neg hif]
    rw [e, e2, ih h', List.cons_append]

lemma collapse_quote_run (b : List Char) (hb : b.head? ≠ some '"') :
    ∀ k, collapse (List.replicate k '"' ++ b) =
      List.replicate ((k + 1) / 2) '"' ++ collapse b := by
  intro k
  induction k using Nat.strong_induction_on with
  | _ k ih =>
    match k with
    | 0 => simp
    | 1 =>
      cases b with
      | nil => simp [collapse]
      | cons c bs =>
        simp only [List.head?_cons, ne_eq, Option.some.injEq] at hb
        have e : List.replicate 1 '"' ++ (c :: bs) = '"' :: c :: bs := rfl
        rw [e, collapse, if_neg (by simp [hb])]
        rfl
    | (k + 2) =>
      have step : List.replicate (k + 2) '"' ++ b =
          '"' :: '"' :: (List.replicate k '"' ++ b) := by
        simp [List.replicate_succ]
      rw [step, collapse, if_pos (by decide), ih k (by omega)]
      have harith : (k + 2 + 1) / 2 = (k + 1) / 2 + 1 := by omega
      rw [harith, List.replicate_succ]
      rfl

/-! ### Claim theorems (second group) -/

/-- C5: on a trimmed block, the unwrapper removes exactly the first and
last characters when the block starts with `"Feature:` and ends with a
quote, exactly the last character when it starts with `Feature:` and
ends with a quote, and otherwise leaves it unchanged - a single
non-recursive check stripping at most one artifact quote per end. -/
theorem c5_unwrap_artifact_quotes (b : List Char) :
    cleanedBlockText b = specUnwrap (stripBoth b) :=
  unwrap_eq_spec (stripBoth b)

/-- C4: quote collapsing is a global left-to-right replacement of
non-overlapping `""` pairs: around any maximal run of `k` quotes the
rest of the line is collapsed independently and the run itself becomes
`(k+1)/2` quotes (so `""` becomes `"` and `"""` becomes `""`). -/
theorem c4_quote_pair_collapse (a b : List Char) (k : Nat)
    (ha : a.getLast? ≠ some '"') (hb : b.head? ≠ some '"') :
    collapse (a ++ (List.replicate k '"' ++ b)) =
      collapse a ++ (List.replicate ((k + 1) / 2) '"' ++ collapse b) := by
  rw [collapse_append_of_getLast _ a ha, collapse_quote_run b hb k]

/-- Witness for C4 on the spec's own example: `He said ""hi""` collapses
to `He said "hi"`. -/
theorem c4_quote_pair_collapse_witness :
    (['H', 'e', ' ', 's', 'a', 'i', 'd', ' '] : List Char).getLast? ≠ some '"' ∧
      (['h', 'i', '"', '"'] : List Char).head? ≠ some '"' ∧
      collapse (['H', 'e', ' ', 's', 'a', 'i', 'd', ' '] ++
          (List.replicate 2 '"' ++ ['h', 'i', '"', '"'])) =
        collapse ['H', 'e', ' ', 's', 'a', 'i', 'd', ' '] ++
          (List.replicate ((2 + 1) / 2) '"' ++ collapse ['h', 'i', '"', '"']) :=
  ⟨by decide, by decide,
    c4_quote_pair_collapse ['H', 'e', ' ', 's', 'a', 'i', 'd', ' ']
      ['h', 'i', '"', '"'] 2 (by decide) (by decide)⟩

/-! ### Classifier refinement -/

lemma processLine_eq_spec (line : List Char) :
    processLine line = specProcessLine line := by
  simp only [processLine, specProcessLine, specRuleTable, findRuleIndent,
    List.any_cons, List.any_nil, Bool.or_false]
  set p := collapse (rstripW line) with hp
  set t := dropWhileST p with ht
  by_cases e1 : startsWithSeq featureMarker t = true
  · simp [e1, List.replicate]
  · simp only [Bool.not_eq_true] at e1
    by_cases e2 : startsWithSeq kwTag t = true
    · simp [e1, e2, List.replicate]
    · simp only [Bool.not_eq_true] at e2
      by_cases e3 : startsWithSeq kwScenario t = true
      · simp [e1, e2, e3, List.replicate]
      · simp only [Bool.not_eq_true] at e3
        by_cases e4 : startsWithSeq kwRule t = true
        · simp [e1, e2, e3, e4, List.replicate]
        · simp only [Bool.not_eq_true] at e4
          by_cases e5 : startsWithSeq kwExample t = true
          · simp [e1, e2, e3, e4, e5, List.replicate]
          · simp only [Bool.not_eq_true] at e5
            by_cases e6 : startsWithSeq kwBackground t = true
            · simp [e1, e2, e3, e4, e5, e6, List.replicate]
            · simp only [Bool.not_eq_true] at e6
              by_cases e7 : startsWithSeq kwExamples t = true
              · simp [e1, e2, e3, e4, e5, e6, e7, List.replicate]
              · simp only [Bool.not_eq_true] at e7
                by_cases e8 : startsWithSeq kwTableRow t = true
                · simp [e1, e2, e3, e4, e5, e6, e7, e8, List.replicate]
                · simp only [Bool.not_eq_true] at e8
                  by_cases e9 : startsWithSeq kwGiven t = true
                  · simp [e1, e2, e3, e4, e5, e6, e7, e8, e9, List.replicate]
                  · simp only [Bool.not_eq_true] at e9
                    by_cases e10 : startsWithSeq kwWhen t = true
                    · simp [e1, e2, e3, e4, e5, e6, e7, e8, e9, e10, List.replicate]
                    · simp only [Bool.not_eq_true] at e10
                      by_cases e11 : startsWithSeq kwThen t = true
                      · simp [e1, e2, e3, e4, e5, e6, e7, e8, e9, e10, e11,
                          List.replicate]
                      · simp only [Bool.not_eq_true] at e11
                        by_cases e12 : startsWithSeq kwAnd t = true
                        · simp [e1, e2, e3, e4, e5, e6, e7, e8, e9, e10, e11, e12,
                            List.replicate]
                        · simp only [Bool.not_eq_true] at e12
                          by_cases e13 : startsWithSeq kwBut t = true
                          · simp [e1, e2, e3, e4, e5, e6, e7, e8, e9, e10, e11, e12,
                              e13, List.replicate]
                          · simp only [Bool.not_eq_true] at e13
                            by_cases e14 : startsWithSeq kwStar t = true
                            · simp [e1, e2, e3, e4, e5, e6, e7, e8, e9, e10, e11,
                                e12, e13, e14, List.replicate]
                            · simp only [Bool.not_eq_true] at e14
                              simp [e1, e2, e3, e4, e5, e6, e7, e8, e9, e10, e11,
                                e12, e13, e14]

/-- C1: every line of an unwrapped block - after trailing-whitespace
removal, doubled-quote collapsing, and removal of leading spaces and tabs
only - is classified by prefix match in the fixed priority order
feature, tag, section, examples, table-row, step, empty, fallback, and
the emitted line is the canonical indent (0/2/2/4/6/4 spaces per
category) concatenated with the lead-stripped content; a blank line is
emitted as the empty string and a fallback line is emitted unchanged
after rstrip and quote collapse. -/
theorem c1_line_classification (line : List Char) :
    processLine line = specProcessLine line :=
  processLine_eq_spec line

/-! ### Character-preservation lemmas -/

/-- The non-breaking space character U+00A0. -/
def nbsp : Char := Char.ofNat 160

lemma filter_collapse (f : Char → Bool) (hf : f '"' = false) :
    ∀ m, (collapse m).filter f = m.filter f := by
  intro m
  induction m using collapse.induct with
  | case1 => rfl
  | case2 c => rfl
  | case3 c1 c2 rest hif ih =>
    simp only [Bool.and_eq_true, beq_iff_eq] at hif
    obtain ⟨h1, h2⟩ := hif
    subst h1; subst h2
    rw [collapse, if_pos (by decide)]
    simp [List.filter_cons, hf, ih]
  | case4 c1 c2 rest hif ih =>
    rw [collapse, if_neg hif]
    simp [List.filter_cons, ih]

lemma filter_dropWhile (g f : Char → Bool) (hgf : ∀ c, g c = true → f c = false) :
    ∀ m : List Char, (m.dropWhile g).filter f = m.filter f := by
  intro m
  induction m with
  | nil => rfl
  | cons a rest ih =>
    rw [List.dropWhile_cons]
    by_cases hg : g a = true
    · rw [if_pos hg, ih, List.filter_cons, if_neg (by simp [hgf a hg])]
    · rw [if_neg hg]

lemma head?_dropWhile_false (g : Char → Bool) :
    ∀ (m : List Char) (c : Char), (m.dropWhile g).head? = some c → g c = false := by
  intro m
  induction m with
  | nil => intro c h; simp [List.dropWhile] at h
  | cons a rest ih =>
    intro c h
    rw [List.dropWhile_cons] at h
    by_cases hg : g a = true
    · rw [if_pos hg] at h
      exact ih c h
    · rw [if_neg hg] at h
      simp only [List.head?_cons, Option.some.injEq] at h
      subst h
      exact Bool.not_eq_true _ ▸ hg

lemma rstripW_getLast {m : List Char} {c : Char}
    (h : (rstripW m).getLast? = some c) : isPySpace c = false := by
  unfold rstripW at h
  rw [List.getLast?_reverse] at h
  exact head?_dropWhile_false _ _ _ h

lemma collapse_cons_ne_nil (c : Char) (rest : List Char) :
    collapse (c :: rest) ≠ [] := by
  cases rest with
  | nil => simp [collapse]
  | cons d r =>
    rw [collapse]
    split <;> simp

lemma getLast?_collapse : ∀ m : List Char, (collapse m).getLast? = m.getLast? := by
  intro m
  induction m using collapse.induct with
  | case1 => rfl
  | case2 c => rfl
  | case3 c1 c2 rest hif ih =>
    simp only [Bool.and_eq_true, beq_iff_eq] at hif
    obtain ⟨h1, h2⟩ := hif
    subst h1; subst h2
    rw [collapse, if_pos (by decide)]
    cases rest with
    | nil => rfl
    | cons r rs =>
      obtain ⟨x, xs, hx⟩ : ∃ x xs, collapse (r :: rs) = x :: xs := by
        cases hcc : collapse (r :: rs) with
        | nil => exact absurd hcc (collapse_cons_ne_nil r rs)
        | cons x xs => exact ⟨x, xs, rfl⟩
      rw [hx, List.getLast?_cons_cons, ← hx, ih, List.getLast?_cons_cons,
        List.getLast?_cons_cons]
  | case4 c1 c2 rest hif ih =>
    rw [collapse, if_neg hif]
    obtain ⟨x, xs, hx⟩ : ∃ x xs, collapse (c2 :: rest) = x :: xs := by
      cases hcc : collapse (c2 :: rest) with
      | nil => exact absurd hcc (collapse_cons_ne_nil c2 rest)
      | cons x xs => exact ⟨x, xs, rfl⟩
    rw [hx, List.getLast?_cons_cons, ← hx, ih, List.getLast?_cons_cons]

lemma rstripW_eq_nil_of_token_empty {l : List Char}
    (h : dropWhileST (collapse (rstripW l)) = []) : rstripW l = [] := by
  unfold dropWhileST at h
  rw [List.dropWhile_eq_nil_iff] at h
  cases hr : (rstripW l).getLast? with
  | none => rwa [List.getLast?_eq_none_iff] at hr
  | some c =>
    have hcs : isPySpace c = false := rstripW_getLast hr
    have hmem : c ∈ collapse (rstripW l) :=
      List.mem_of_mem_getLast? (by rw [getLast?_collapse]; exact hr)
    have := h c hmem
    simp only [Bool.or_eq_true, beq_iff_eq] at this
    rcases this with h' | h' <;> subst h' <;> simp [isPySpace] at hcs

/-! ### Claim theorems (third group) -/

/-- C3 (amended): within each line, every non-breaking space that is not
part of the trailing whitespace removed by `rstrip` is preserved by the
line transformation: the non-breaking spaces of the emitted line are
exactly those of the rstripped line.  (A NBSP inside trailing or
block-edge whitespace is removed, because Python treats U+00A0 as
whitespace.) -/
theorem c3_nbsp_preserved_outside_stripped_whitespace (line : List Char) :
    (processLine line).filter (fun c => c == nbsp) =
      (rstripW line).filter (fun c => c == nbsp) := by
  have hst : ∀ c : Char, (c == ' ' || c == '\t') = true → (c == nbsp) = false := by
    intro c h
    simp only [Bool.or_eq_true, beq_iff_eq] at h
    rcases h with h | h <;> subst h <;> decide
  have hp : (collapse (rstripW line)).filter (fun c => c == nbsp) =
      (rstripW line).filter (fun c => c == nbsp) :=
    filter_collapse _ (by decide) _
  have ht : (dropWhileST (collapse (rstripW line))).filter (fun c => c == nbsp) =
      (rstripW line).filter (fun c => c == nbsp) :=
    (filter_dropWhile _ _ hst _).trans hp
  have hsp : ((' ' : Char) == nbsp) = false := by decide
  simp only [processLine]
  split_ifs with h1 h2 h3 h4 h5 h6 h7
  · exact ht
  · simp [List.filter_cons, hsp, ht]
  · simp [List.filter_cons, hsp, ht]
  · simp [List.filter_cons, hsp, ht]
  · simp [List.filter_cons, hsp, ht]
  · simp [List.filter_cons, hsp, ht]
  · rw [rstripW_eq_nil_of_token_empty (by simpa using h7)]
  · exact hp

/-- Counterexample to C3 as stated: a non-breaking space in trailing
position is removed by the transformation (Python's strip/rstrip treat
U+00A0 as whitespace), so it does not appear in the output. -/
theorem c3_nbsp_counterexample :
    clean_gherkin_text_simplified
        ['F', 'e', 'a', 't', 'u', 'r', 'e', ':', ' ', 'A', nbsp] =
      ['F', 'e', 'a', 't', 'u', 'r', 'e', ':', ' ', 'A'] ∧
    nbsp ∈ ['F', 'e', 'a', 't', 'u', 'r', 'e', ':', ' ', 'A', nbsp] ∧
    nbsp ∉ clean_gherkin_text_simplified
        ['F', 'e', 'a', 't', 'u', 'r', 'e', ':', ' ', 'A', nbsp] := by
  refine ⟨by decide, by decide, by decide⟩

/-! ### Idempotence machinery -/

/-- A doubled quote. -/
def qq : List Char := ['"', '"']

/-- A tripled quote. -/
def qqq : List Char := ['"', '"', '"']

lemma startsWithSeq_append {pat : List Char} :
    ∀ {m : List Char} (t : List Char), startsWithSeq pat m = true →
      startsWithSeq pat (m ++ t) = true := by
  induction pat with
  | nil => intro m t _; rfl
  | cons p ps ih =>
    intro m t h
    cases m with
    | nil => exact absurd h (by simp [startsWithSeq])
    | cons c cs =>
      simp only [startsWithSeq, Bool.and_eq_true] at h
      simp only [List.cons_append, startsWithSeq, Bool.and_eq_true]
      exact ⟨h.1, ih t h.2⟩

lemma containsSeq_nil_pat : ∀ l : List Char, containsSeq [] l = true := by
  intro l
  cases l with
  | nil => rfl
  | cons c rest => simp [containsSeq, startsWithSeq]

lemma containsSeq_append_left {pat : List Char} :
    ∀ (a t : List Char), containsSeq pat a = true →
      containsSeq pat (a ++ t) = true := by
  intro a
  induction a with
  | nil =>
    intro t h
    cases pat with
    | nil => exact containsSeq_nil_pat t
    | cons p ps => exact absurd h (by simp [containsSeq, startsWithSeq])
  | cons c a' ih =>
    intro t h
    simp only [containsSeq, Bool.or_eq_true] at h
    rcases h with h | h
    · rw [List.cons_append]
      exact containsSeq_of_startsWith (by
        have := startsWithSeq_append (m := c :: a') t h
        rwa [List.cons_append] at this)
    · rw [List.cons_append]
      exact containsSeq_tail c (ih t h)

lemma containsSeq_dropWhile_mono {pat : List Char} (g : Char → Bool) :
    ∀ m : List Char, containsSeq pat (m.dropWhile g) = true →
      containsSeq pat m = true := by
  intro m
  induction m with
  | nil => intro h; simpa using h
  | cons c rest ih =>
    intro h
    rw [List.dropWhile_cons] at h
    by_cases hg : g c = true
    · rw [if_pos hg] at h
      exact containsSeq_tail c (ih h)
    · rwa [if_neg hg] at h

lemma containsSeq_rstripW_mono {pat l : List Char}
    (h : containsSeq pat (rstripW l) = true) : containsSeq pat l = true := by
  have hsplit : l = rstripW l ++ (l.reverse.takeWhile isPySpace).reverse := by
    unfold rstripW
    rw [← List.reverse_append, List.takeWhile_append_dropWhile, List.reverse_reverse]
  rw [hsplit]
  exact containsSeq_append_left _ _ h

lemma head?_collapse : ∀ m : List Char, (collapse m).head? = m.head? := by
  intro m
  induction m using collapse.induct with
  | case1 => rfl
  | case2 c => rfl
  | case3 c1 c2 rest hif ih =>
    simp only [Bool.and_eq_true, beq_iff_eq] at hif
    obtain ⟨h1, h2⟩ := hif
    subst h1; subst h2
    rw [collapse, if_pos (by decide)]
    rfl
  | case4 c1 c2 rest hif ih =>
    rw [collapse, if_neg hif]
    rfl

lemma containsSeq_cons_eq (pat : List Char) (c : Char) (r : List Char) :
    containsSeq pat (c :: r) = (startsWithSeq pat (c :: r) || containsSeq pat r) :=
  rfl

lemma sw_q_head (x : List Char) :
    startsWithSeq ['"'] x = true ↔ x.head? = some '"' := by
  cases x with
  | nil => decide
  | cons a as =>
    simp only [startsWithSeq, List.head?_cons, Option.some.injEq]
    rw [Bool.and_true, beq_iff_eq]
    exact eq_comm

lemma noPair_collapse : ∀ m : List Char, containsSeq qqq m = false →
    containsSeq qq (collapse m) = false := by
  intro m
  induction m using collapse.induct with
  | case1 => intro _; rfl
  | case2 c => intro _; simp [containsSeq, startsWithSeq, qq]
  | case3 c1 c2 rest hif ih =>
    intro h
    simp only [Bool.and_eq_true, beq_iff_eq] at hif
    obtain ⟨h1, h2⟩ := hif
    subst h1; subst h2
    simp only [containsSeq, Bool.or_eq_false_iff] at h
    have hhd : (collapse rest).head? ≠ some '"' := by
      rw [head?_collapse]
      intro hh
      have hsw3 : startsWithSeq qqq ('"' :: '"' :: rest) = true := by
        show (('"' == '"') && (('"' == '"') && startsWithSeq ['"'] rest)) = true
        simp [(sw_q_head rest).mpr hh]
      simp [hsw3] at h
    have hrec : containsSeq qq (collapse rest) = false := ih h.2.2
    rw [collapse, if_pos (by decide)]
    have hsw : startsWithSeq qq ('"' :: collapse rest) = false := by
      show (('"' == '"') && startsWithSeq ['"'] (collapse rest)) = false
      cases hs : startsWithSeq ['"'] (collapse rest) with
      | false => simp
      | true => exact absurd ((sw_q_head _).mp hs) hhd
    cases hcr : collapse rest with
    | nil => decide
    | cons x xs =>
      rw [hcr] at hsw hrec
      rw [containsSeq_cons_eq, hsw, hrec]
      rfl
  | case4 c1 c2 rest hif ih =>
    intro h
    simp only [containsSeq, Bool.or_eq_false_iff] at h
    have htl : containsSeq qqq (c2 :: rest) = false := by
      simp only [containsSeq, Bool.or_eq_false_iff]
      exact h.2
    have hrec : containsSeq qq (collapse (c2 :: rest)) = false := ih htl
    rw [collapse, if_neg hif]
    have hsw : startsWithSeq qq (c1 :: collapse (c2 :: rest)) = false := by
      show (('"' == c1) && startsWithSeq ['"'] (collapse (c2 :: rest))) = false
      cases hc1 : ('"' == c1) with
      | false => simp
      | true =>
        cases hs : startsWithSeq ['"'] (collapse (c2 :: rest)) with
        | false => simp
        | true =>
          exfalso
          have hc2 : c2 = '"' := by
            have := (sw_q_head _).mp hs
            rw [head?_collapse, List.head?_cons] at this
            exact Option.some.inj this
          apply hif
          simp only [beq_iff_eq] at hc1
          simp [← hc1, hc2]
    obtain ⟨x, xs, hx⟩ : ∃ x xs, collapse (c2 :: rest) = x :: xs := by
      cases hcc : collapse (c2 :: rest) with
      | nil => exact absurd hcc (collapse_cons_ne_nil c2 rest)
      | cons x xs => exact ⟨x, xs, rfl⟩
    rw [hx] at hsw hrec ⊢
    rw [containsSeq_cons_eq, hsw, hrec]
    rfl

lemma collapse_fix_of_noPair : ∀ m : List Char, containsSeq qq m = false →
    collapse m = m := by
  intro m
  induction m using collapse.induct with
  | case1 => intro _; rfl
  | case2 c => intro _; rfl
  | case3 c1 c2 rest hif ih =>
    intro h
    exfalso
    simp only [Bool.and_eq_true, beq_iff_eq] at hif
    obtain ⟨h1, h2⟩ := hif
    subst h1; subst h2
    have hsw : startsWithSeq qq ('"' :: '"' :: rest) = true := by
      show (('"' == '"') && (('"' == '"') && startsWithSeq [] rest)) = true
      rw [show startsWithSeq [] rest = true from rfl]
      decide
    rw [containsSeq_cons_eq, hsw] at h
    simp at h
  | case4 c1 c2 rest hif ih =>
    intro h
    simp only [containsSeq, Bool.or_eq_false_iff] at h
    have htl : containsSeq qq (c2 :: rest) = false := by
      simp only [containsSeq, Bool.or_eq_false_iff]
      exact h.2
    rw [collapse, if_neg hif, ih htl]

lemma rstripW_fix {m : List Char} {c : Char} (h : m.getLast? = some c)
    (hc : isPySpace c = false) : rstripW m = m := by
  unfold rstripW
  cases hrev : m.reverse with
  | nil =>
    rw [List.reverse_eq_nil_iff] at hrev
    subst hrev
    simp at h
  | cons a as =>
    have ha : a = c := by
      have h2 := List.head?_reverse m
      rw [hrev, List.head?_cons, h] at h2
      exact Option.some.inj h2
    rw [List.dropWhile_cons, if_neg (by rw [ha, hc]; simp), ← hrev,
      List.reverse_reverse]

lemma getLast?_dropWhile (g : Char → Bool) :
    ∀ m : List Char, m.dropWhile g ≠ [] →
      (m.dropWhile g).getLast? = m.getLast? := by
  intro m
  induction m with
  | nil => intro h; exact absurd rfl h
  | cons c rest ih =>
    intro h
    rw [List.dropWhile_cons] at h ⊢
    by_cases hg : g c = true
    · rw [if_pos hg] at h ⊢
      rw [ih h]
      cases rest with
      | nil => exact absurd rfl h
      | cons d ds => rw [List.getLast?_cons_cons]
    · rw [if_neg hg]

lemma dropWhileST_space (x : List Char) : dropWhileST (' ' :: x) = dropWhileST x := by
  unfold dropWhileST
  rw [List.dropWhile_cons, if_pos (by decide)]

lemma containsSeq_qq_space (x : List Char) :
    containsSeq qq (' ' :: x) = containsSeq qq x := by
  rw [containsSeq_cons_eq]
  have hq : startsWithSeq qq (' ' :: x) = false := by
    show (('"' == ' ') && startsWithSeq ['"'] x) = false
    rw [show (('"' : Char) == ' ') = false from rfl, Bool.false_and]
  rw [hq, Bool.false_or]

lemma containsSeq_qq_spaces : ∀ ind : List Char, (∀ c ∈ ind, c = ' ') →
    ∀ x, containsSeq qq (ind ++ x) = containsSeq qq x := by
  intro ind
  induction ind with
  | nil => intro _ x; rfl
  | cons a as ih =>
    intro hind x
    have ha : a = ' ' := hind a (List.mem_cons_self a as)
    subst ha
    rw [List.cons_append, containsSeq_qq_space,
      ih (fun c hc => hind c (List.mem_cons_of_mem _ hc)) x]

lemma dropWhileST_spaces : ∀ ind : List Char, (∀ c ∈ ind, c = ' ') →
    ∀ x, dropWhileST (ind ++ dropWhileST x) = dropWhileST x := by
  intro ind
  induction ind with
  | nil =>
    intro _ x
    rw [List.nil_append]
    unfold dropWhileST
    exact List.dropWhile_idempotent _ _
  | cons a as ih =>
    intro hind x
    have ha : a = ' ' := hind a (List.mem_cons_self a as)
    subst ha
    rw [List.cons_append, dropWhileST_space,
      ih (fun c hc => hind c (List.mem_cons_of_mem _ hc)) x]

lemma noTriple_noPair_of_line {line : List Char}
    (hq : containsSeq qqq line = false) :
    containsSeq qq (collapse (rstripW line)) = false := by
  apply noPair_collapse
  cases h3 : containsSeq qqq (rstripW line) with
  | false => rfl
  | true => exact absurd (containsSeq_rstripW_mono h3) (by simp [hq])

lemma reprocess_parts (line : List Char) (hq : containsSeq qqq line = false)
    (ind : List Char) (hind : ∀ c ∈ ind, c = ' ')
    (hne : dropWhileST (collapse (rstripW line)) ≠ []) :
    rstripW (ind ++ dropWhileST (collapse (rstripW line))) =
      ind ++ dropWhileST (collapse (rstripW line)) ∧
    collapse (ind ++ dropWhileST (collapse (rstripW line))) =
      ind ++ dropWhileST (collapse (rstripW line)) ∧
    dropWhileST (ind ++ dropWhileST (collapse (rstripW line))) =
      dropWhileST (collapse (rstripW line)) := by
  have hpne : collapse (rstripW line) ≠ [] := by
    intro h0
    apply hne
    rw [h0]
    rfl
  have hrne : rstripW line ≠ [] := by
    intro h0
    apply hpne
    rw [h0]
    rfl
  obtain ⟨c, hc⟩ : ∃ c, (rstripW line).getLast? = some c := by
    cases hg : (rstripW line).getLast? with
    | none => exact absurd (List.getLast?_eq_none_iff.mp hg) hrne
    | some c => exact ⟨c, rfl⟩
  have hcs : isPySpace c = false := rstripW_getLast hc
  have hgp : (collapse (rstripW line)).getLast? = some c := by
    rw [getLast?_collapse]
    exact hc
  have hgt : (dropWhileST (collapse (rstripW line))).getLast? = some c := by
    unfold dropWhileST at hne ⊢
    rw [getLast?_dropWhile _ _ hne]
    exact hgp
  have hge : (ind ++ dropWhileST (collapse (rstripW line))).getLast? = some c := by
    rw [List.getLast?_append, hgt]
    rfl
  have hqq_t : containsSeq qq (dropWhileST (collapse (rstripW line))) = false := by
    cases h4 : containsSeq qq (dropWhileST (collapse (rstripW line))) with
    | false => rfl
    | true =>
      have h5 : containsSeq qq (collapse (rstripW line)) = true := by
        unfold dropWhileST at h4
        exact containsSeq_dropWhile_mono _ _ h4
      exact absurd h5 (by simp [noTriple_noPair_of_line hq])
  refine ⟨rstripW_fix hge hcs, ?_, dropWhileST_spaces ind hind _⟩
  apply collapse_fix_of_noPair
  rw [containsSeq_qq_spaces ind hind]
  exact hqq_t

lemma reprocess_fallback (line : List Char) (hq : containsSeq qqq line = false)
    (hne : dropWhileST (collapse (rstripW line)) ≠ []) :
    rstripW (collapse (rstripW line)) = collapse (rstripW line) ∧
    collapse (collapse (rstripW line)) = collapse (rstripW line) := by
  have hpne : collapse (rstripW line) ≠ [] := by
    intro h0
    apply hne
    rw [h0]
    rfl
  have hrne : rstripW line ≠ [] := by
    intro h0
    apply hpne
    rw [h0]
    rfl
  obtain ⟨c, hc⟩ : ∃ c, (rstripW line).getLast? = some c := by
    cases hg : (rstripW line).getLast? with
    | none => exact absurd (List.getLast?_eq_none_iff.mp hg) hrne
    | some c => exact ⟨c, rfl⟩
  have hcs : isPySpace c = false := rstripW_getLast hc
  have hgp : (collapse (rstripW line)).getLast? = some c := by
    rw [getLast?_collapse]
    exact hc
  exact ⟨rstripW_fix hgp hcs, collapse_fix_of_noPair _ (noTriple_noPair_of_line hq)⟩

/-! ### Claim theorems (fourth group) -/

/-- C2 (amended): the full transformation is not idempotent, but its
per-line reformatting step is: on any line containing no run of three or
more consecutive double quotes, applying the line transformation twice
yields the same result as applying it once (canonical indentation and
single collapsed quotes are then fixed points). -/
theorem c2_line_transform_idempotent (line : List Char)
    (h : containsSeq qqq line = false) :
    processLine (processLine line) = processLine line := by
  by_cases hne : dropWhileST (collapse (rstripW line)) = []
  · have h1 : processLine line = [] := by
      simp [processLine, hne, startsWithSeq, featureMarker, kwTag, kwScenario,
        kwRule, kwExample, kwBackground, kwExamples, kwTableRow, kwGiven,
        kwWhen, kwThen, kwAnd, kwBut, kwStar]
    rw [h1]
    decide
  · set E := processLine line with hE
    simp only [processLine] at hE
    split_ifs at hE with h1 h2 h3 h4 h5 h6 h7
    · obtain ⟨ha, hb, hc⟩ := reprocess_parts line h [] (by simp) hne
      simp only [List.nil_append] at ha hb hc
      rw [hE]
      simp only [processLine, ha, hb, hc]
      rw [if_pos h1]
    · obtain ⟨ha, hb, hc⟩ := reprocess_parts line h [' ', ' '] (by simp) hne
      simp only [List.cons_append, List.nil_append] at ha hb hc
      rw [hE]
      simp only [processLine, ha, hb, hc]
      rw [if_neg h1, if_pos h2]
    · obtain ⟨ha, hb, hc⟩ := reprocess_parts line h [' ', ' '] (by simp) hne
      simp only [List.cons_append, List.nil_append] at ha hb hc
      rw [hE]
      simp only [processLine, ha, hb, hc]
      rw [if_neg h1, if_neg h2, if_pos h3]
    · obtain ⟨ha, hb, hc⟩ := reprocess_parts line h [' ', ' ', ' ', ' '] (by simp) hne
      simp only [List.cons_append, List.nil_append] at ha hb hc
      rw [hE]
      simp only [processLine, ha, hb, hc]
      rw [if_neg h1, if_neg h2, if_neg h3, if_pos h4]
    · obtain ⟨ha, hb, hc⟩ :=
        reprocess_parts line h [' ', ' ', ' ', ' ', ' ', ' '] (by simp) hne
      simp only [List.cons_append, List.nil_append] at ha hb hc
      rw [hE]
      simp only [processLine, ha, hb, hc]
      rw [if_neg h1, if_neg h2, if_neg h3, if_neg h4, if_pos h5]
    · obtain ⟨ha, hb, hc⟩ := reprocess_parts line h [' ', ' ', ' ', ' '] (by simp) hne
      simp only [List.cons_append, List.nil_append] at ha hb hc
      rw [hE]
      simp only [processLine, ha, hb, hc]
      rw [if_neg h1, if_neg h2, if_neg h3, if_neg h4, if_neg h5, if_pos h6]
    · exact absurd (List.isEmpty_iff.mp h7) hne
    · obtain ⟨ha, hb⟩ := reprocess_fallback line h hne
      rw [hE]
      simp only [processLine, ha, hb]
      rw [if_neg h1, if_neg h2, if_neg h3, if_neg h4, if_neg h5, if_neg h6,
        if_neg h7]

/-- Witness for the amended C2 at a concrete table-row line. -/
theorem c2_line_transform_idempotent_witness :
    containsSeq qqq ['|', ' ', 'a', ' ', '|'] = false ∧
      processLine (processLine ['|', ' ', 'a', ' ', '|']) =
        processLine ['|', ' ', 'a', ' ', '|'] :=
  ⟨by decide, c2_line_transform_idempotent ['|', ' ', 'a', ' ', '|'] (by decide)⟩

/-- Counterexample to C2 as stated: the full transformation is not
idempotent.  A run of four quotes collapses to two on the first pass and
to one on the second; and an artifact trailing quote preceded by
whitespace leaves a trailing empty line that only the second pass
removes. -/
theorem c2_counterexample :
    clean_gherkin_text_simplified (clean_gherkin_text_simplified
        ['F', 'e', 'a', 't', 'u', 'r', 'e', ':', ' ', 'a', '"', '"', '"', '"', 'b']) ≠
      clean_gherkin_text_simplified
        ['F', 'e', 'a', 't', 'u', 'r', 'e', ':', ' ', 'a', '"', '"', '"', '"', 'b'] ∧
    clean_gherkin_text_simplified (clean_gherkin_text_simplified
        ['F', 'e', 'a', 't', 'u', 'r', 'e', ':', ' ', 'x', '\n', ' ', ' ', '"']) ≠
      clean_gherkin_text_simplified
        ['F', 'e', 'a', 't', 'u', 'r', 'e', ':', ' ', 'x', '\n', ' ', ' ', '"'] :=
  ⟨by decide, by decide⟩

end Gherkin
